import Mathlib

/-!
Verification development for the blog-scraper `scripts/scrape_blog.py`.

The Python source is shallowly embedded: pure text helpers become Lean
functions over `List Char`; BeautifulSoup documents become an explicit
`Node` tree (fetching/parsing is modelled as input data); `requests`
calls are modelled by an environment function returning a fetch result;
the filesystem writes of `main` are modelled by returning the list of
records that would be written.  Python's `\w` and `str.lower` are
modelled on the ASCII fragment plus the Turkish letters that the script
manipulates explicitly.
-/

/-- The six characters matched by Python's `\s` on ASCII input. -/
def pyIsSpace (c : Char) : Bool :=
  c == ' ' || c == '\t' || c == '\n' || c == '\r' || c == '\x0b' || c == '\x0c'

/-- Python `\w` (word character), restricted to ASCII plus the Turkish
letters handled by the script: letters, digits, underscore. -/
def pyIsWordChar (c : Char) : Bool :=
  (65 ≤ c.toNat && c.toNat ≤ 90) || (97 ≤ c.toNat && c.toNat ≤ 122) ||
  (48 ≤ c.toNat && c.toNat ≤ 57) || c == '_' ||
  c == 'ğ' || c == 'ü' || c == 'ş' || c == 'ı' || c == 'ö' || c == 'ç' ||
  c == 'Ğ' || c == 'Ü' || c == 'Ş' || c == 'Ö' || c == 'Ç'

/-- Python `str.lower`, on the ASCII fragment (65..90 are `A`..`Z`,
adding 32 yields `a`..`z`) plus the Turkish uppercase letters used by
the blog's titles. -/
def pyLower (c : Char) : Char :=
  if 65 ≤ c.toNat ∧ c.toNat ≤ 90 then Char.ofNat (c.toNat + 32)
  else if c = 'Ç' then 'ç'
  else if c = 'Ö' then 'ö'
  else if c = 'Ü' then 'ü'
  else if c = 'Ğ' then 'ğ'
  else if c = 'Ş' then 'ş'
  else c

/-- The chained `str.replace` calls of `generate_slug`: each Turkish
lowercase letter is mapped to its ASCII base letter.  The replacements
are independent (no output is a later input), so the sequential
replaces equal one character map. -/
def turkishFold (c : Char) : Char :=
  if c = 'ğ' then 'g'
  else if c = 'ü' then 'u'
  else if c = 'ş' then 's'
  else if c = 'ı' then 'i'
  else if c = 'ö' then 'o'
  else if c = 'ç' then 'c'
  else c

/-- `re.sub(p+, r, s)` for a character class `p`: every maximal run of
characters satisfying `p` is replaced by the single character `r`.
The flag records whether the previous character was part of a run. -/
def subRuns (p : Char → Bool) (r : Char) : Bool → List Char → List Char
  | _, [] => []
  | b, c :: cs =>
    if p c then
      (if b then subRuns p r true cs else r :: subRuns p r true cs)
    else c :: subRuns p r false cs

/-- Remove every trailing character satisfying `p` (the right half of
Python `str.strip`). -/
def dropEndP (p : Char → Bool) : List Char → List Char
  | [] => []
  | a :: t =>
    match dropEndP p t with
    | [] => if p a then [] else [a]
    | l => a :: l

/-- Python `s.strip(r)` for a single character `r`: remove leading and
trailing copies of `r`. -/
def stripChar (r : Char) (l : List Char) : List Char :=
  dropEndP (· == r) (l.dropWhile (· == r))

/-- Python `s.strip()` (no argument): remove leading and trailing
whitespace. -/
def stripWs (l : List Char) : List Char :=
  dropEndP pyIsSpace (l.dropWhile pyIsSpace)

/-- Characters kept by `generate_slug`'s `re.sub(r'[^a-z0-9\s-]', '', slug)`
(97..122 are `a`..`z`, 48..57 are `0`..`9`). -/
def slugKeep (c : Char) : Bool :=
  (97 ≤ c.toNat && c.toNat ≤ 122) || (48 ≤ c.toNat && c.toNat ≤ 57) ||
  pyIsSpace c || c == '-'

/-- The output alphabet `[a-z0-9-]` claimed for slugs. -/
def slugChar (c : Char) : Bool :=
  (97 ≤ c.toNat && c.toNat ≤ 122) || (48 ≤ c.toNat && c.toNat ≤ 57) || c == '-'

/-- `sanitize_filename` from the source, reading inside out:
`re.sub(r'[^\w\s-]', '', f)`, then `re.sub(r'[-\s]+', '-', f)`,
then `.lower()`, then `.strip('-')`. -/
def sanitizePipeline (s : String) : List Char :=
  stripChar '-'
    ((subRuns (fun c => pyIsSpace c || c == '-') '-' false
      (s.data.filter (fun c => pyIsWordChar c || pyIsSpace c || c == '-'))).map pyLower)

def sanitize_filename (s : String) : String :=
  String.mk (sanitizePipeline s)

/-- `generate_slug` from the source, reading inside out: lowercase,
fold Turkish diacritics, drop characters outside `[a-z0-9\s-]`,
collapse whitespace runs to `-`, collapse `-` runs, strip edge `-`. -/
def slugPipeline (title : String) : List Char :=
  stripChar '-'
    (subRuns (· == '-') '-' false
      (subRuns pyIsSpace '-' false
        (((title.data.map pyLower).map turkishFold).filter slugKeep)))

def generate_slug (title : String) : String :=
  String.mk (slugPipeline title)

/-- Number of `\b\w+\b` matches: the number of maximal runs of word
characters.  The flag records whether the previous character was a
word character. -/
def countWordsAux : Bool → List Char → Nat
  | _, [] => 0
  | b, c :: cs =>
    let w := pyIsWordChar c
    if w && !b then 1 + countWordsAux w cs else countWordsAux w cs

/-- `len(re.findall(r'\b\w+\b', text))`. -/
def countWords (text : String) : Nat :=
  countWordsAux false text.data

/-- Python string repetition `s * n`. -/
def pyRepeat (s : String) : Nat → String
  | 0 => ""
  | n + 1 => s ++ pyRepeat s n

/-- `calculate_reading_time` from the source:
`max(1, (words + 199) // 200)`. -/
def calculate_reading_time (text : String) : Nat :=
  max 1 ((countWords text + 199) / 200)

/-- `needle` is a leading segment of the second list. -/
def leadsWith : List Char → List Char → Bool
  | [], _ => true
  | _ :: _, [] => false
  | a :: as, b :: bs => a == b && leadsWith as bs

/-- Substring test: models `re.search` of a literal pattern and
Python's `in` on strings. -/
def containsL (needle : List Char) : List Char → Bool
  | [] => leadsWith needle []
  | c :: t => leadsWith needle (c :: t) || containsL needle t

/-- `suffix` is a trailing segment of `l`: models `str.endswith`. -/
def endsWithL (suffix l : List Char) : Bool :=
  leadsWith suffix.reverse l.reverse

/-- Split a character list into its maximal whitespace-free groups:
used for the multi-valued `class` attribute. -/
def splitWsAux : List Char → List Char → List (List Char)
  | [], acc => if acc.isEmpty then [] else [acc.reverse]
  | c :: t, acc =>
    if pyIsSpace c then
      (if acc.isEmpty then splitWsAux t [] else acc.reverse :: splitWsAux t [])
    else splitWsAux t (c :: acc)

/-- The whitespace-separated tokens of a `class` attribute value. -/
def classTokens (v : String) : List String :=
  (splitWsAux v.data []).map String.mk

/-- A parsed HTML node, the shallow embedding of a BeautifulSoup tree.
Fetching and parsing are modelled as producing such a tree. -/
inductive Node where
  | text (s : String)
  | elem (tag : String) (attrs : List (String × String)) (children : List Node)

/-- Attribute lookup on an attribute list (`Tag.get`). -/
def attrOf (attrs : List (String × String)) (k : String) : Option String :=
  (attrs.find? (fun a => a.1 == k)).map (fun a => a.2)

/-- `Tag.get` on a node: `none` on text nodes. -/
def nodeAttr (n : Node) (k : String) : Option String :=
  match n with
  | .elem _ attrs _ => attrOf attrs k
  | .text _ => none

/-- `soup.find(tag)` predicate: the node is an element with this tag. -/
def tagIs (t : String) (n : Node) : Bool :=
  match n with
  | .elem tg _ _ => tg == t
  | .text _ => false

/-- The node's tag is one of the listed names. -/
def tagIn (ts : List String) (n : Node) : Bool :=
  match n with
  | .elem tg _ _ => ts.contains tg
  | .text _ => false

/-- `soup.find(class_=re.compile(p1|p2))` predicate: some class token
of the element matches (contains) one of the literal patterns.
BeautifulSoup matches the regex against each class token. -/
def classMatch (pats : List String) (n : Node) : Bool :=
  match n with
  | .elem _ attrs _ =>
    match attrOf attrs "class" with
    | some v => (classTokens v).any (fun tk => pats.any (fun pat => containsL pat.data tk.data))
    | none => false
  | .text _ => false

/-- CSS class selector `.c` used by `soup.select`: exact class token. -/
def hasClassToken (c : String) (n : Node) : Bool :=
  match n with
  | .elem _ attrs _ =>
    match attrOf attrs "class" with
    | some v => (classTokens v).contains c
    | none => false
  | .text _ => false

/-- CSS attribute selector `[class*="pat"]`: substring of the whole
attribute value. -/
def classAttrContains (pat : String) (n : Node) : Bool :=
  match n with
  | .elem _ attrs _ =>
    match attrOf attrs "class" with
    | some v => containsL pat.data v.data
    | none => false
  | .text _ => false

mutual
/-- Descendants of a node matching `p`, in document (pre-)order:
models `Tag.find_all` (which searches descendants only). -/
def findDesc (p : Node → Bool) : Node → List Node
  | .text _ => []
  | .elem _ _ cs => findForest p cs

/-- All nodes of a forest matching `p` (each root included), pre-order. -/
def findForest (p : Node → Bool) : List Node → List Node
  | [] => []
  | c :: cs => (if p c then [c] else []) ++ findDesc p c ++ findForest p cs
end

/-- `soup.find(...)`: first descendant matching `p`. -/
def findFirst (p : Node → Bool) (doc : Node) : Option Node :=
  (findDesc p doc).head?

mutual
/-- `Tag.get_text()`: concatenation of all text fragments, in order. -/
def getTextRaw : Node → String
  | .text s => s
  | .elem _ _ cs => getTextRawL cs

def getTextRawL : List Node → String
  | [] => ""
  | c :: cs => getTextRaw c ++ getTextRawL cs
end

mutual
/-- `Tag.get_text(strip=True)`: concatenation of the individually
stripped text fragments. -/
def getTextStrip : Node → String
  | .text s => String.mk (stripWs s.data)
  | .elem _ _ cs => getTextStripL cs

def getTextStripL : List Node → String
  | [] => ""
  | c :: cs => getTextStrip c ++ getTextStripL cs
end

mutual
/-- Remove every node (with its subtree) matching `p`, recursively:
models collecting matches with `find_all`/`select` and calling
`decompose` on each. -/
def removeNodes (p : Node → Bool) : Node → Node
  | .text s => .text s
  | .elem t a cs => .elem t a (removeNodesL p cs)

def removeNodesL (p : Node → Bool) : List Node → List Node
  | [] => []
  | c :: cs => (if p c then [] else [removeNodes p c]) ++ removeNodesL p cs
end

mutual
/-- `str(tag)`: render the tree back to an HTML string. -/
def serializeNode : Node → String
  | .text s => s
  | .elem t attrs cs =>
    "<" ++ t ++ serializeAttrs attrs ++ ">" ++ serializeForest cs ++ "</" ++ t ++ ">"

def serializeAttrs : List (String × String) → String
  | [] => ""
  | (k, v) :: rest => " " ++ k ++ "=\"" ++ v ++ "\"" ++ serializeAttrs rest

def serializeForest : List Node → String
  | [] => ""
  | c :: cs => serializeNode c ++ serializeForest cs
end

/-- Split a URL at `"://"`: scheme and remainder, if present. -/
def splitScheme : List Char → Option (List Char × List Char)
  | [] => none
  | c :: t =>
    if leadsWith "://".data (c :: t) then some ([], (c :: t).drop 3)
    else match splitScheme t with
      | some (pre, post) => some (c :: pre, post)
      | none => none

/-- Modelled `urllib.parse.urljoin` for the reference shapes this
script produces: absolute `http(s)` references are returned unchanged,
root-relative references are resolved against the base's
scheme-and-host, and other relative references against the base up to
its last `/`.  (Only these shapes reach `urljoin` in the source.) -/
def urljoinM (base src : String) : String :=
  if leadsWith "http://".data src.data || leadsWith "https://".data src.data then src
  else if leadsWith "/".data src.data then
    match splitScheme base.data with
    | some (scheme, rest) =>
      String.mk (scheme ++ "://".data ++ rest.takeWhile (fun c => !(c == '/'))) ++ src
    | none => src
  else
    match splitScheme base.data with
    | some (scheme, rest) =>
      if rest.contains '/' then
        String.mk (scheme ++ "://".data ++ (rest.reverse.dropWhile (fun c => !(c == '/'))).reverse) ++ src
      else String.mk (scheme ++ "://".data ++ rest) ++ "/" ++ src
    | none => src

/-- The `src` attribute chosen by `extract_images`:
`img.get('src') or img.get('data-src')`, where empty strings are
falsy, then skipped entirely if still falsy. -/
def imgSrcOf (n : Node) : Option String :=
  let alt : Option String :=
    match nodeAttr n "data-src" with
    | some s => if s = "" then none else some s
    | none => none
  match nodeAttr n "src" with
  | some s => if s = "" then alt else some s
  | none => alt

/-- The URL-resolution branches of `extract_images`. -/
def resolveImgSrc (base src : String) : String :=
  if leadsWith "//".data src.data then "https:" ++ src
  else if leadsWith "/".data src.data then urljoinM base src
  else if !(leadsWith "http".data src.data) then urljoinM base src
  else src

/-- `extract_images(html, base_url)`: every `img` of the (re-parsed)
content fragment, in document order, with its chosen `src` resolved. -/
def extract_images (content : List Node) (baseUrl : String) : List String :=
  ((findForest (tagIs "img") content).filterMap imgSrcOf).map (resolveImgSrc baseUrl)

/-- The fixed block-list of `clean_html_content`: tag selectors, exact
class selectors, and `[class*=...]` substring selectors. -/
def cleanUnwanted (n : Node) : Bool :=
  tagIn ["script", "style", "nav", "footer", "header"] n ||
  (["subscribe", "social-share", "newsletter", "advertisement", "ads"].any
    (fun c => hasClassToken c n)) ||
  (["ad-", "subscribe", "newsletter"].any (fun pat => classAttrContains pat n))

/-- A `p` element whose stripped text is empty. -/
def emptyParagraph (n : Node) : Bool :=
  tagIs "p" n && getTextStrip n == ""

/-- `clean_html_content`: remove all block-listed elements, then all
empty paragraphs.  It operates on the re-parsed fragment, modelled as
the forest containing the fragment's root. -/
def clean_html_content (ns : List Node) : List Node :=
  removeNodesL emptyParagraph (removeNodesL cleanUnwanted ns)

/-- The category table `CATEGORY_MAP` (keys). -/
def categoryKeys : List String := ["PostgreSQL", "Company Updates"]

/-- `CATEGORY_MAP.get(category, {}).get("tr", category)`. -/
def categoryTrOf (c : String) : String :=
  if c = "PostgreSQL" then "PostgreSQL"
  else if c = "Company Updates" then "Şirket Güncellemeleri"
  else c

/-- A normalized post record: the dict built by `scrape_blog_post`. -/
structure Post where
  title : String
  titleTr : String
  slug : String
  date : String
  author : String
  category : String
  categoryTr : String
  tags : List String
  tagsTr : List String
  sourceUrl : String
  canonicalUrl : String
  excerpt : String
  excerptTr : String
  content : String
  contentTr : String
  readingTime : Nat
  heroImage : Option String
  images : List String
  published : Bool
deriving DecidableEq

/-- A JSON value as serialized by `json.dump` for this record shape. -/
inductive JVal where
  | s (v : String)
  | n (v : Nat)
  | b (v : Bool)
  | arr (v : List String)
  | null
deriving DecidableEq

/-- The key/value pairs of the dict literal in `scrape_blog_post`, in
source order: this is exactly what `json.dump` persists. -/
def postPairs (p : Post) : List (String × JVal) :=
  [("title", .s p.title),
   ("titleTr", .s p.titleTr),
   ("slug", .s p.slug),
   ("date", .s p.date),
   ("author", .s p.author),
   ("category", .s p.category),
   ("categoryTr", .s p.categoryTr),
   ("tags", .arr p.tags),
   ("tagsTr", .arr p.tagsTr),
   ("sourceUrl", .s p.sourceUrl),
   ("canonicalUrl", .s p.canonicalUrl),
   ("excerpt", .s p.excerpt),
   ("excerptTr", .s p.excerptTr),
   ("content", .s p.content),
   ("contentTr", .s p.contentTr),
   ("readingTime", .n p.readingTime),
   ("heroImage", match p.heroImage with | some h => .s h | none => .null),
   ("images", .arr p.images),
   ("published", .b p.published)]

/-- Result of fetching and parsing one page: either a parsed document
or a failure (network error, non-2xx status, or a raised exception —
all are caught by the same `except` in the source). -/
inductive Fetched where
  | ok (doc : Node)
  | err

/-- The ambient effects of the script, modelled as inputs: the
fetch-and-parse of a URL, the date parser (`datetime.strptime` against
the four format strings, returning the `isoformat` string on success),
and `datetime.now().isoformat()`. -/
structure ScrapeEnv where
  fetch : String → Fetched
  parseDate : String → Option String
  now : String

/-- Title extraction: `soup.find('h1') or soup.find('title')`, else
the literal `"Untitled"`. -/
def titleOf (doc : Node) : String :=
  match findFirst (tagIs "h1") doc <|> findFirst (tagIs "title") doc with
  | some e => getTextStrip e
  | none => "Untitled"

/-- Date-string extraction: first `time` element or first element with
a `date|published` class; prefer a non-empty `datetime` attribute over
the element's text. -/
def dateStrOf (doc : Node) : Option String :=
  (findFirst (tagIs "time") doc <|> findFirst (classMatch ["date", "published"]) doc).map
    (fun e =>
      match nodeAttr e "datetime" with
      | some v => if v = "" then getTextStrip e else v
      | none => getTextStrip e)

/-- The `date.isoformat()` stored in the record: parse the first 19
characters of the date string, defaulting to the wall-clock time. -/
def dateIsoOf (env : ScrapeEnv) (doc : Node) : String :=
  match dateStrOf doc with
  | some ds => if ds = "" then env.now else (env.parseDate (String.mk (ds.data.take 19))).getD env.now
  | none => env.now

/-- Author extraction: first element with an `author|byline` class,
else the sentinel `"Postgres Pro"`. -/
def authorOf (doc : Node) : String :=
  match findFirst (classMatch ["author", "byline"]) doc with
  | some e => getTextStrip e
  | none => "Postgres Pro"

/-- Category extraction: first element with a `category|tag` class,
accepted only on an exact key of `CATEGORY_MAP`, else `"PostgreSQL"`. -/
def categoryOf (doc : Node) : String :=
  match findFirst (classMatch ["category", "tag"]) doc with
  | some e =>
    let ct := getTextStrip e
    if categoryKeys.contains ct then ct else "PostgreSQL"
  | none => "PostgreSQL"

/-- Tag extraction: all elements with a `tag|keyword` class, non-empty
texts, deduplicated preserving first-seen order. -/
def tagsOf (doc : Node) : List String :=
  (findDesc (classMatch ["tag", "keyword"]) doc).foldl
    (fun acc e =>
      let t := getTextStrip e
      if t ≠ "" ∧ ¬ acc.contains t then acc ++ [t] else acc)
    []

/-- The content-region fallback chain: `article`, else `main`, else an
element with a `content|post-body` class, else `body`. -/
def contentElemOf (doc : Node) : Option Node :=
  findFirst (tagIs "article") doc <|> findFirst (tagIs "main") doc <|>
  findFirst (classMatch ["content", "post-body"]) doc <|> findFirst (tagIs "body") doc

/-- The in-place `decompose` of `script/style/nav/footer` descendants
performed on the content region before anything else uses it. -/
def pruneRegion (region : Node) : Node :=
  removeNodes (tagIn ["script", "style", "nav", "footer"]) region

/-- The meta-description value: `og:description` meta first, then
`name=description` meta, reading `content` with default `""`. -/
def metaExcerptOf (doc : Node) : String :=
  match findFirst (fun n => tagIs "meta" n && nodeAttr n "property" == some "og:description") doc <|>
        findFirst (fun n => tagIs "meta" n && nodeAttr n "name" == some "description") doc with
  | some e => (nodeAttr e "content").getD ""
  | none => ""

/-- Excerpt extraction: the meta description if non-empty (Python
truthiness), else the first paragraph of the pruned content region,
stripped and truncated to 200 characters, else `""`. -/
def excerptOf (doc : Node) (region : Node) : String :=
  let ex := metaExcerptOf doc
  if ex = "" then
    match findFirst (tagIs "p") region with
    | some fp => String.mk ((getTextStrip fp).data.take 200)
    | none => ""
  else ex

/-- The record assembled by `scrape_blog_post` once a content region
has been found. -/
def buildPost (env : ScrapeEnv) (url : String) (doc : Node) (region : Node) : Post :=
  let pruned := pruneRegion region
  let cleaned := clean_html_content [pruned]
  let title := titleOf doc
  let excerpt := excerptOf doc pruned
  let contentHtml := serializeForest cleaned
  { title := title
    titleTr := title
    slug := generate_slug title
    date := dateIsoOf env doc
    author := authorOf doc
    category := categoryOf doc
    categoryTr := categoryTrOf (categoryOf doc)
    tags := tagsOf doc
    tagsTr := tagsOf doc
    sourceUrl := url
    canonicalUrl := url
    excerpt := excerpt
    excerptTr := excerpt
    content := contentHtml
    contentTr := contentHtml
    readingTime := calculate_reading_time (getTextRaw pruned)
    heroImage := none
    images := extract_images cleaned url
    published := true }

/-- `scrape_blog_post(url)`: `None` on any fetch/parse failure and
when no content region exists; otherwise the assembled record. -/
def scrape_blog_post (env : ScrapeEnv) (url : String) : Option Post :=
  match env.fetch url with
  | .err => none
  | .ok doc =>
    match contentElemOf doc with
    | some region => some (buildPost env url doc region)
    | none => none

/-- One iteration of `main`'s per-post loop: on a successful scrape,
persist the record as `<slug>.json` and bump the success count. -/
def mainStep (env : ScrapeEnv) (acc : List (String × Post) × Nat) (url : String) :
    List (String × Post) × Nat :=
  match scrape_blog_post env url with
  | some post => (acc.1 ++ [(post.slug ++ ".json", post)], acc.2 + 1)
  | none => acc

/-- The per-post loop of `main`: scrape every URL in order, persist
each successful record, and count the successes.  The filesystem is
modelled by the returned list of writes. -/
def runMain (env : ScrapeEnv) (urls : List String) : List (String × Post) × Nat :=
  urls.foldl (mainStep env) ([], 0)

/-- `os.path.basename` of a URL path: the part after the last `/`. -/
def baseNameL (l : List Char) : List Char :=
  (l.reverse.takeWhile (fun c => !(c == '/'))).reverse

/-- The extension component of `os.path.splitext`, applied to a
basename: everything from the last `.` on, provided some character
strictly before that dot is not itself a dot (CPython's rule, so
`.png` alone has no extension). -/
def extOfBase (b : List Char) : List Char :=
  let rb := b.reverse
  let pre := rb.takeWhile (fun c => !(c == '.'))
  if pre.length = rb.length then []
  else if (rb.drop (pre.length + 1)).any (fun c => !(c == '.')) then '.' :: pre.reverse
  else []

/-- `os.path.splitext(parsed.path)[1] or '.jpg'`: the extension
derived from the URL path, defaulting to `.jpg`.  (`splitext` only
inspects the part after the last `/`.) -/
def imageExt (urlPath : String) : String :=
  let e := extOfBase (baseNameL urlPath.data)
  if e.isEmpty then ".jpg" else String.mk e

/-- The filename written by `download_image`: the sanitized basename
(falling back to `'image'` when it sanitizes to nothing), with the
derived extension appended unless already a suffix. -/
def imageFilename (urlPath : String) : String :=
  let f := sanitize_filename (String.mk (baseNameL urlPath.data))
  let f := if f = "" then "image" else f
  if endsWithL (imageExt urlPath).data f.data then f else f ++ imageExt urlPath

/-- Result of the image byte fetch in `download_image`. -/
inductive ImgFetch where
  | ok
  | err

/-- `download_image(img_url, slug)`, with `urlparse(img_url).path`
modelled as the `urlPath` input and the byte fetch as `fetch`: on any
fetch failure it logs and returns `None`; on success it writes the
bytes and returns the site-relative path `/blog/<slug>/<filename>`. -/
def download_image (urlPath slug : String) (fetch : ImgFetch) : Option String :=
  match fetch with
  | .err => none
  | .ok => some ("/blog/" ++ slug ++ "/" ++ imageFilename urlPath)

/-- One fetched listing page: a failure, or the page's anchor `href`s
(in document order) together with whether an `a` element with a
`next|pagination` class is present. -/
inductive FetchPage where
  | fail
  | page (hrefs : List String) (hasNext : Bool)

/-- The post URLs contributed by a listing page: `href`s that are
non-empty and contain `/blog/`, resolved against the base URL. -/
def pageUrls (base : String) : FetchPage → List String
  | .fail => []
  | .page hrefs _ => (hrefs.filter (fun h => !(h == "") && containsL "/blog/".data h.data)).map (urljoinM base)

/-- Whether a listing page carries a next/pagination link. -/
def pageHasNext : FetchPage → Bool
  | .fail => false
  | .page _ nx => nx

/-- One step of the crawler's per-page loop: add a resolved URL to the
accumulated set if unseen, recording that something new was found. -/
def addLink (st : List String × Bool) (u : String) : List String × Bool :=
  if st.1.contains u then st else (u :: st.1, true)

/-- `find_all_blog_links`, with the listing endpoint modelled as the
page-indexed `pages` input and the unbounded `while True` given an
explicit fuel: `none` means the fuel ran out before the loop's own
termination conditions fired.  A fetch failure returns the links so
far; a page with no new URL or no next link returns the links
including its own. -/
def find_all_blog_links (base : String) (pages : Nat → FetchPage) :
    Nat → List String → Nat → Option (List String)
  | 0, _, _ => none
  | fuel + 1, links, p =>
    match pages p with
    | .fail => some links
    | .page hrefs nx =>
      let st := (pageUrls base (.page hrefs nx)).foldl addLink (links, false)
      if !st.2 || !nx then some st.1
      else find_all_blog_links base pages fuel st.1 (p + 1)

/-- No two adjacent occurrences of `r` in the list. -/
def noTwoAdj (r : Char) : List Char → Bool
  | a :: b :: t => !(a == r && b == r) && noTwoAdj r (b :: t)
  | _ => true

/-- The list does not start with `r`. -/
def headIsNot (r : Char) : List Char → Bool
  | [] => true
  | a :: _ => !(a == r)

/-- The list does not end with a character satisfying `p`. -/
def lastIsNot (p : Char → Bool) : List Char → Bool
  | [] => true
  | [a] => !(p a)
  | _ :: b :: t => lastIsNot p (b :: t)

/-- ASCII alphanumeric (the characters that survive `generate_slug`
with a non-empty trace). -/
def isAsciiAlnumB (c : Char) : Bool :=
  (65 ≤ c.toNat && c.toNat ≤ 90) || (97 ≤ c.toNat && c.toNat ≤ 122) ||
  (48 ≤ c.toNat && c.toNat ≤ 57)

/-- The field names actually written by the source's dict literal. -/
def actualPostKeys : List String :=
  ["title", "titleTr", "slug", "date", "author", "category", "categoryTr",
   "tags", "tagsTr", "sourceUrl", "canonicalUrl", "excerpt", "excerptTr",
   "content", "contentTr", "readingTime", "heroImage", "images", "published"]

/-- The field names enumerated by the spec's data model. -/
def claimedPostKeys : List String :=
  ["title", "titleTranslated", "slug", "date", "author", "category", "categoryTranslated",
   "tags", "tagsTranslated", "sourceUrl", "canonicalUrl", "excerpt", "excerptTranslated",
   "content", "contentTranslated", "readingTime", "heroImage", "images", "published"]

/-- Modelled from the spec (refinement reference, not from the source):
the excerpt as the spec's sentence describes it — meta description,
else the first NON-empty paragraph of the content region, in all cases
truncated to 200 characters. -/
def specExcerptOf (doc region : Node) : String :=
  let base :=
    if metaExcerptOf doc ≠ "" then metaExcerptOf doc
    else
      match (((findDesc (tagIs "p") region).map getTextStrip).filter (fun t => !(t == ""))).head? with
      | some t => t
      | none => ""
  String.mk (base.data.take 200)

/-- A page whose record has a title, an absolute-URL image and a
paragraph: the generic successful-extraction input. -/
def bodyHello : Node :=
  .elem "body" []
    [.elem "h1" [] [.text "Hello"],
     .elem "img" [("src", "https://example.com/pics/a.png")] [],
     .elem "p" [] [.text "Intro text"]]

def docHello : Node :=
  .elem "[document]" [] [.elem "html" [] [bodyHello]]

def envHello : ScrapeEnv :=
  ⟨fun _ => .ok docHello, fun _ => none, "2024-01-01T00:00:00"⟩

/-- A page whose only title text is `"!!!"`. -/
def bodyBang : Node :=
  .elem "body" [] [.elem "h1" [] [.text "!!!"], .elem "p" [] [.text "Some text"]]

def docBang : Node :=
  .elem "[document]" [] [.elem "html" [] [bodyBang]]

def envBang : ScrapeEnv :=
  ⟨fun _ => .ok docBang, fun _ => none, "2024-01-01T00:00:00"⟩

/-- A 201-character meta description. -/
def longDescr : String := String.mk (List.replicate 201 'a')

def bodyMetaLong : Node := .elem "body" [] [.elem "p" [] [.text "x"]]

def docMetaLong : Node :=
  .elem "[document]" []
    [.elem "html" []
      [.elem "head" [] [.elem "meta" [("property", "og:description"), ("content", longDescr)] []],
       bodyMetaLong]]

def envMetaLong : ScrapeEnv :=
  ⟨fun _ => .ok docMetaLong, fun _ => none, "2024-01-01T00:00:00"⟩

/-- A page with no meta description whose FIRST paragraph is empty and
whose second paragraph has text. -/
def bodyEmptyFirstP : Node :=
  .elem "body" [] [.elem "p" [] [], .elem "p" [] [.text "Hello"]]

def docEmptyFirstP : Node :=
  .elem "[document]" [] [.elem "html" [] [bodyEmptyFirstP]]

def envEmptyFirstP : ScrapeEnv :=
  ⟨fun _ => .ok docEmptyFirstP, fun _ => none, "2024-01-01T00:00:00"⟩

/-- A page with no content-region candidate at all (no `article`,
`main`, content-class element, or `body`). -/
def docNoBody : Node :=
  .elem "[document]" [] [.elem "html" [] [.elem "h1" [] [.text "T"]]]

def envNoBody : ScrapeEnv :=
  ⟨fun _ => .ok docNoBody, fun _ => none, "2024-01-01T00:00:00"⟩

/-- An environment whose every fetch fails. -/
def envErr : ScrapeEnv :=
  ⟨fun _ => .err, fun _ => none, "2024-01-01T00:00:00"⟩

theorem toNat_ofNat_valid (n : Nat) (h : n < 55296) : (Char.ofNat n).toNat = n := by
  unfold Char.ofNat
  rw [dif_pos (Or.inl h : n.isValidChar)]
  rfl

theorem pyIsSpace_toNat {c : Char} (h : pyIsSpace c = true) : c.toNat ≤ 32 := by
  simp [pyIsSpace] at h
  rcases h with ((((rfl | rfl) | rfl) | rfl) | rfl) | rfl <;> decide

theorem slugChar_arith {c : Char} (h : slugChar c = true) :
    (97 ≤ c.toNat ∧ c.toNat ≤ 122) ∨ (48 ≤ c.toNat ∧ c.toNat ≤ 57) ∨ c.toNat = 45 := by
  simp [slugChar] at h
  rcases h with (h | h) | rfl
  · exact Or.inl h
  · exact Or.inr (Or.inl h)
  · exact Or.inr (Or.inr (by decide))

theorem pyLower_eq_self (c : Char) (h1 : ¬(65 ≤ c.toNat ∧ c.toNat ≤ 90))
    (h2 : c ≠ 'Ç') (h3 : c ≠ 'Ö') (h4 : c ≠ 'Ü') (h5 : c ≠ 'Ğ') (h6 : c ≠ 'Ş') :
    pyLower c = c := by
  unfold pyLower
  rw [if_neg h1, if_neg h2, if_neg h3, if_neg h4, if_neg h5, if_neg h6]

theorem pyLower_id_of_le (c : Char) (h1 : ¬(65 ≤ c.toNat ∧ c.toNat ≤ 90))
    (h2 : c.toNat ≤ 122) : pyLower c = c := by
  refine pyLower_eq_self c h1 ?_ ?_ ?_ ?_ ?_ <;>
    · intro he
      subst he
      exact absurd h2 (by decide)

theorem pyLower_upper (c : Char) (h : 65 ≤ c.toNat ∧ c.toNat ≤ 90) :
    (pyLower c).toNat = c.toNat + 32 := by
  unfold pyLower
  rw [if_pos h]
  exact toNat_ofNat_valid _ (by omega)

theorem turkishFold_id_of_le (c : Char) (h : c.toNat ≤ 122) : turkishFold c = c := by
  unfold turkishFold
  rw [if_neg, if_neg, if_neg, if_neg, if_neg, if_neg] <;>
    · intro he
      subst he
      exact absurd h (by decide)

theorem pyLower_id_slugChar {c : Char} (h : slugChar c = true) : pyLower c = c := by
  have ha := slugChar_arith h
  exact pyLower_id_of_le c (by omega) (by omega)

theorem turkishFold_id_slugChar {c : Char} (h : slugChar c = true) : turkishFold c = c := by
  have ha := slugChar_arith h
  exact turkishFold_id_of_le c (by omega)

theorem slugChar_slugKeep {c : Char} (h : slugChar c = true) : slugKeep c = true := by
  simp [slugChar] at h
  simp [slugKeep]
  tauto

theorem slugChar_not_space {c : Char} (h : slugChar c = true) : pyIsSpace c = false := by
  cases hs : pyIsSpace c
  · rfl
  · have h1 := pyIsSpace_toNat hs
    have h2 := slugChar_arith h
    omega

theorem mem_subRuns (p : Char → Bool) (r c : Char) :
    ∀ (l : List Char) (b : Bool), c ∈ subRuns p r b l → c = r ∨ (c ∈ l ∧ p c = false) := by
  intro l
  induction l with
  | nil => intro b h; simp [subRuns] at h
  | cons a t ih =>
    intro b h
    by_cases hpa : p a = true
    · have key : c ∈ subRuns p r true t ∨ c = r := by
        cases b
        · simp [subRuns, hpa] at h
          rcases h with rfl | h'
          · exact Or.inr rfl
          · exact Or.inl h'
        · simp [subRuns, hpa] at h
          exact Or.inl h
      rcases key with h' | rfl
      · rcases ih true h' with h1 | ⟨h2, h3⟩
        · exact Or.inl h1
        · exact Or.inr ⟨List.mem_cons_of_mem _ h2, h3⟩
      · exact Or.inl rfl
    · have hpa' : p a = false := by revert hpa; cases p a <;> simp
      simp [subRuns, hpa'] at h
      rcases h with rfl | h'
      · exact Or.inr ⟨List.mem_cons_self _ _, hpa'⟩
      · rcases ih false h' with h1 | ⟨h2, h3⟩
        · exact Or.inl h1
        · exact Or.inr ⟨List.mem_cons_of_mem _ h2, h3⟩

theorem mem_subRuns_of_mem (p : Char → Bool) (r c : Char) (hc : p c = false) :
    ∀ (l : List Char) (b : Bool), c ∈ l → c ∈ subRuns p r b l := by
  intro l
  induction l with
  | nil => intro b h; cases h
  | cons a t ih =>
    intro b h
    rcases List.mem_cons.mp h with rfl | ht
    · simp [subRuns, hc]
    · by_cases hpa : p a = true
      · cases b
        · simp [subRuns, hpa]
          exact Or.inr (ih true ht)
        · simp [subRuns, hpa]
          exact ih true ht
      · have hpa' : p a = false := by revert hpa; cases p a <;> simp
        simp [subRuns, hpa']
        exact Or.inr (ih false ht)

theorem subRuns_eq_self (p : Char → Bool) (r : Char) :
    ∀ (l : List Char) (b : Bool), (∀ c ∈ l, p c = false) → subRuns p r b l = l := by
  intro l
  induction l with
  | nil => intro b _; simp [subRuns]
  | cons a t ih =>
    intro b h
    have hpa := h a (List.mem_cons_self _ _)
    simp [subRuns, hpa]
    exact ih false (fun c hc => h c (List.mem_cons_of_mem _ hc))

theorem noTwoAdj_tail {r a : Char} {t : List Char} (h : noTwoAdj r (a :: t) = true) :
    noTwoAdj r t = true := by
  cases t with
  | nil => rfl
  | cons b u =>
    simp [noTwoAdj] at h
    exact h.2

theorem noTwoAdj_cons_of (r a : Char) (t : List Char) (ha : (a == r) = false)
    (h : noTwoAdj r t = true) : noTwoAdj r (a :: t) = true := by
  cases t with
  | nil => rfl
  | cons b u =>
    simp [noTwoAdj, ha]
    simpa [noTwoAdj] using h

theorem noTwoAdj_cons_r (r : Char) (t : List Char) (ht : headIsNot r t = true)
    (h : noTwoAdj r t = true) : noTwoAdj r (r :: t) = true := by
  cases t with
  | nil => rfl
  | cons b u =>
    simp [headIsNot] at ht
    simp [noTwoAdj, ht]
    simpa [noTwoAdj] using h

theorem noTwoAdj_head_of_r {r : Char} {t : List Char} (h : noTwoAdj r (r :: t) = true) :
    headIsNot r t = true := by
  cases t with
  | nil => rfl
  | cons b u =>
    simp [noTwoAdj] at h
    simp [headIsNot]
    exact h.1

theorem subRuns_noTwoAdj (p : Char → Bool) (r : Char) (hpr : p r = true) :
    ∀ (l : List Char) (b : Bool),
      noTwoAdj r (subRuns p r b l) = true ∧
      (b = true → headIsNot r (subRuns p r b l) = true) := by
  intro l
  induction l with
  | nil => intro b; exact ⟨rfl, fun _ => rfl⟩
  | cons a t ih =>
    intro b
    by_cases hpa : p a = true
    · cases b
      · simp [subRuns, hpa]
        exact noTwoAdj_cons_r r _ ((ih true).2 rfl) (ih true).1
      · simp [subRuns, hpa]
        exact ⟨(ih true).1, (ih true).2 rfl⟩
    · have hpa' : p a = false := by revert hpa; cases p a <;> simp
      have har : (a == r) = false := by
        cases he : a == r
        · rfl
        · rw [beq_iff_eq] at he
          subst he
          rw [hpr] at hpa'
          cases hpa'
      simp [subRuns, hpa']
      constructor
      · exact noTwoAdj_cons_of r a _ har (ih false).1
      · intro _
        simp [headIsNot, har]

theorem subRuns_eq_self_of_noTwoAdj (r : Char) :
    ∀ (l : List Char) (b : Bool), noTwoAdj r l = true →
      (b = true → headIsNot r l = true) → subRuns (· == r) r b l = l := by
  intro l
  induction l with
  | nil => intro b _ _; simp [subRuns]
  | cons a t ih =>
    intro b hn hb
    by_cases har : (a == r) = true
    · rw [beq_iff_eq] at har
      subst har
      cases b
      · simp [subRuns]
        exact ih true (noTwoAdj_tail hn) (fun _ => noTwoAdj_head_of_r hn)
      · have := hb rfl
        simp [headIsNot] at this
    · have har' : (a == r) = false := by revert har; cases a == r <;> simp
      simp [subRuns, har']
      exact ih false (noTwoAdj_tail hn) (fun h => by cases h)

theorem mem_of_mem_dropEndP (p : Char → Bool) (c : Char) :
    ∀ (l : List Char), c ∈ dropEndP p l → c ∈ l := by
  intro l
  induction l with
  | nil => intro h; cases h
  | cons a t ih =>
    intro h
    rw [dropEndP] at h
    cases hd : dropEndP p t with
    | nil =>
      rw [hd] at h
      by_cases hpa : p a = true
      · simp [hpa] at h
      · have hpa' : p a = false := by revert hpa; cases p a <;> simp
        simp [hpa'] at h
        subst h
        exact List.mem_cons_self _ _
    | cons x xs =>
      rw [hd] at h
      rcases List.mem_cons.mp h with rfl | h'
      · exact List.mem_cons_self _ _
      · exact List.mem_cons_of_mem _ (ih (hd ▸ h'))

theorem mem_dropEndP_of_mem (p : Char → Bool) (c : Char) (hc : p c = false) :
    ∀ (l : List Char), c ∈ l → c ∈ dropEndP p l := by
  intro l
  induction l with
  | nil => intro h; cases h
  | cons a t ih =>
    intro h
    rw [dropEndP]
    rcases List.mem_cons.mp h with rfl | ht
    · cases hd : dropEndP p t with
      | nil => simp [hc]
      | cons x xs => exact List.mem_cons_self _ _
    · have h' := ih ht
      cases hd : dropEndP p t with
      | nil => rw [hd] at h'; cases h'
      | cons x xs => exact List.mem_cons_of_mem _ (hd ▸ h')

theorem dropEndP_eq_self (p : Char → Bool) :
    ∀ (l : List Char), lastIsNot p l = true → dropEndP p l = l := by
  intro l
  induction l with
  | nil => intro _; rfl
  | cons a t ih =>
    intro h
    rw [dropEndP]
    cases t with
    | nil =>
      simp [lastIsNot] at h
      simp [dropEndP, h]
    | cons b u =>
      have h' : lastIsNot p (b :: u) = true := by
        simpa [lastIsNot] using h
      rw [ih h']

theorem lastIsNot_dropEndP (p : Char → Bool) :
    ∀ (l : List Char), lastIsNot p (dropEndP p l) = true := by
  intro l
  induction l with
  | nil => rfl
  | cons a t ih =>
    rw [dropEndP]
    cases hd : dropEndP p t with
    | nil =>
      by_cases hpa : p a = true
      · simp [hpa]; rfl
      · have hpa' : p a = false := by revert hpa; cases p a <;> simp
        simp [hpa', lastIsNot]
    | cons x xs =>
      rw [hd] at ih
      simpa [lastIsNot] using ih

theorem head_dropEndP (p : Char → Bool) (x : Char) (xs : List Char) :
    ∀ (l : List Char), dropEndP p l = x :: xs → ∃ t, l = x :: t := by
  intro l
  cases l with
  | nil => intro h; cases h
  | cons a t =>
    intro h
    rw [dropEndP] at h
    cases hd : dropEndP p t with
    | nil =>
      rw [hd] at h
      by_cases hpa : p a = true
      · simp [hpa] at h
      · have hpa' : p a = false := by revert hpa; cases p a <;> simp
        simp [hpa'] at h
        exact ⟨t, by rw [h.1]⟩
    | cons y ys =>
      rw [hd] at h
      exact ⟨t, by rw [(List.cons.injEq _ _ _ _ |>.mp h).1]⟩

theorem headIsNot_dropEndP (r : Char) (p : Char → Bool) :
    ∀ (l : List Char), headIsNot r l = true → headIsNot r (dropEndP p l) = true := by
  intro l hl
  cases hd : dropEndP p l with
  | nil => rfl
  | cons x xs =>
    obtain ⟨t, rfl⟩ := head_dropEndP p x xs l hd
    simpa [headIsNot] using hl

theorem noTwoAdj_dropEndP (r : Char) (p : Char → Bool) :
    ∀ (l : List Char), noTwoAdj r l = true → noTwoAdj r (dropEndP p l) = true := by
  intro l
  induction l with
  | nil => intro _; rfl
  | cons a t ih =>
    intro h
    rw [dropEndP]
    cases hd : dropEndP p t with
    | nil =>
      by_cases hpa : p a = true
      · simp [hpa]; rfl
      · have hpa' : p a = false := by revert hpa; cases p a <;> simp
        simp [hpa']; rfl
    | cons x xs =>
      rw [hd] at ih
      have hta := ih (noTwoAdj_tail h)
      obtain ⟨u, hu⟩ := head_dropEndP p x xs t hd
      have hax : (a == r && x == r) = false := by
        subst hu
        cases t' : (a == r) with
        | false => simp [t']
        | true =>
          simp [noTwoAdj, t'] at h
          simp [t', h.1]
      cases hxr : (a == r) with
      | false => exact noTwoAdj_cons_of r a _ hxr hta
      | true =>
        have har : a = r := by rwa [beq_iff_eq] at hxr
        have hxf : (x == r) = false := by simpa [hxr] using hax
        rw [har]
        exact noTwoAdj_cons_r r (x :: xs) (by simp [headIsNot, hxf]) hta

theorem headIsNot_dropWhile (r : Char) :
    ∀ (l : List Char), headIsNot r (l.dropWhile (· == r)) = true := by
  intro l
  induction l with
  | nil => rfl
  | cons a t ih =>
    rw [List.dropWhile_cons]
    cases ha : (a == r) with
    | false => simp [headIsNot, ha]
    | true => simpa [ha] using ih

theorem mem_dropWhile_of_mem (p : Char → Bool) (c : Char) (hc : p c = false) :
    ∀ (l : List Char), c ∈ l → c ∈ l.dropWhile p := by
  intro l
  induction l with
  | nil => intro h; cases h
  | cons a t ih =>
    intro h
    rw [List.dropWhile_cons]
    rcases List.mem_cons.mp h with rfl | ht
    · simp [hc]
    · by_cases hpa : p a = true
      · simp [hpa]; exact ih ht
      · have hpa' : p a = false := by revert hpa; cases p a <;> simp
        simp [hpa']
        exact Or.inr ht

theorem noTwoAdj_dropWhile (r : Char) (q : Char → Bool) :
    ∀ (l : List Char), noTwoAdj r l = true → noTwoAdj r (l.dropWhile q) = true := by
  intro l
  induction l with
  | nil => intro _; rfl
  | cons a t ih =>
    intro h
    rw [List.dropWhile_cons]
    by_cases hqa : q a = true
    · simp [hqa]
      exact ih (noTwoAdj_tail h)
    · have hqa' : q a = false := by revert hqa; cases q a <;> simp
      simpa [hqa'] using h

theorem dropWhile_eq_self_of_headIsNot (r : Char) (l : List Char)
    (h : headIsNot r l = true) : l.dropWhile (· == r) = l := by
  cases l with
  | nil => rfl
  | cons a t =>
    simp [headIsNot] at h
    simp [List.dropWhile_cons, h]

theorem mem_of_mem_stripChar (r c : Char) (l : List Char) (h : c ∈ stripChar r l) : c ∈ l :=
  List.dropWhile_subset _ (mem_of_mem_dropEndP _ c _ h)

theorem mem_stripChar_of_mem (r c : Char) (hc : (c == r) = false) (l : List Char)
    (h : c ∈ l) : c ∈ stripChar r l :=
  mem_dropEndP_of_mem _ c hc _ (mem_dropWhile_of_mem _ c hc l h)

theorem headIsNot_stripChar (r : Char) (l : List Char) :
    headIsNot r (stripChar r l) = true :=
  headIsNot_dropEndP r _ _ (headIsNot_dropWhile r l)

theorem lastIsNot_stripChar (r : Char) (l : List Char) :
    lastIsNot (· == r) (stripChar r l) = true :=
  lastIsNot_dropEndP _ _

theorem noTwoAdj_stripChar (r : Char) (l : List Char) (h : noTwoAdj r l = true) :
    noTwoAdj r (stripChar r l) = true :=
  noTwoAdj_dropEndP r _ _ (noTwoAdj_dropWhile r _ l h)

theorem stripChar_eq_self (r : Char) (l : List Char) (h1 : headIsNot r l = true)
    (h2 : lastIsNot (· == r) l = true) : stripChar r l = l := by
  unfold stripChar
  rw [dropWhile_eq_self_of_headIsNot r l h1]
  exact dropEndP_eq_self _ l h2

theorem map_id_of_mem (f : Char → Char) :
    ∀ (l : List Char), (∀ c ∈ l, f c = c) → l.map f = l := by
  intro l
  induction l with
  | nil => intro _; rfl
  | cons a t ih =>
    intro h
    rw [List.map_cons, h a (List.mem_cons_self _ _), ih (fun c hc => h c (List.mem_cons_of_mem _ hc))]

theorem filter_id_of_mem (p : Char → Bool) :
    ∀ (l : List Char), (∀ c ∈ l, p c = true) → l.filter p = l := by
  intro l
  induction l with
  | nil => intro _; rfl
  | cons a t ih =>
    intro h
    rw [List.filter_cons]
    simp [h a (List.mem_cons_self _ _)]
    exact fun c hc => h c (List.mem_cons_of_mem _ hc)

theorem slugChar_of_ranges (c : Char)
    (h : (97 ≤ c.toNat ∧ c.toNat ≤ 122) ∨ (48 ≤ c.toNat ∧ c.toNat ≤ 57)) :
    slugChar c = true := by
  simp [slugChar]
  rcases h with h | h
  · exact Or.inl (Or.inl h)
  · exact Or.inl (Or.inr h)

theorem slug_data_chars (t : String) : ∀ c ∈ slugPipeline t, slugChar c = true := by
  intro c hc
  have h5 := mem_of_mem_stripChar '-' c _ hc
  rcases mem_subRuns _ '-' c _ _ h5 with rfl | ⟨h4, _⟩
  · simp [slugChar]
  · rcases mem_subRuns _ '-' c _ _ h4 with rfl | ⟨h3, hns⟩
    · simp [slugChar]
    · have hk : slugKeep c = true := (List.mem_filter.mp h3).2
      simp [slugKeep, hns] at hk
      simp [slugChar]
      tauto

theorem slug_noTwoAdj (t : String) : noTwoAdj '-' (slugPipeline t) = true :=
  noTwoAdj_stripChar _ _ ((subRuns_noTwoAdj (· == '-') '-' (by simp) _ false).1)

theorem slug_headIsNot (t : String) : headIsNot '-' (slugPipeline t) = true :=
  headIsNot_stripChar _ _

theorem slug_lastIsNot (t : String) : lastIsNot (· == '-') (slugPipeline t) = true :=
  lastIsNot_stripChar _ _

theorem generate_slug_idem (t : String) : generate_slug (generate_slug t) = generate_slug t := by
  have hchar := slug_data_chars t
  have h1 : (slugPipeline t).map pyLower = slugPipeline t :=
    map_id_of_mem _ _ (fun c hc => pyLower_id_slugChar (hchar c hc))
  have h2 : (slugPipeline t).map turkishFold = slugPipeline t :=
    map_id_of_mem _ _ (fun c hc => turkishFold_id_slugChar (hchar c hc))
  have h3 : (slugPipeline t).filter slugKeep = slugPipeline t :=
    filter_id_of_mem _ _ (fun c hc => slugChar_slugKeep (hchar c hc))
  have h4 : subRuns pyIsSpace '-' false (slugPipeline t) = slugPipeline t :=
    subRuns_eq_self _ '-' _ false (fun c hc => slugChar_not_space (hchar c hc))
  have h5 : subRuns (· == '-') '-' false (slugPipeline t) = slugPipeline t :=
    subRuns_eq_self_of_noTwoAdj '-' _ false (slug_noTwoAdj t) (fun h => by cases h)
  have h6 : stripChar '-' (slugPipeline t) = slugPipeline t :=
    stripChar_eq_self '-' _ (slug_headIsNot t) (slug_lastIsNot t)
  suffices h : slugPipeline (generate_slug t) = slugPipeline t by
    show String.mk (slugPipeline (generate_slug t)) = String.mk (slugPipeline t)
    rw [h]
  show stripChar '-'
      (subRuns (· == '-') '-' false
        (subRuns pyIsSpace '-' false
          ((((generate_slug t).data.map pyLower).map turkishFold).filter slugKeep))) =
    slugPipeline t
  rw [show (generate_slug t).data = slugPipeline t from rfl, h1, h2, h3, h4, h5, h6]

theorem slug_survivor (t : String) (c : Char) (hc : c ∈ t.data)
    (hca : isAsciiAlnumB c = true) : pyLower c ∈ slugPipeline t := by
  have hr : (97 ≤ (pyLower c).toNat ∧ (pyLower c).toNat ≤ 122) ∨
      (48 ≤ (pyLower c).toNat ∧ (pyLower c).toNat ≤ 57) := by
    simp [isAsciiAlnumB] at hca
    rcases hca with (h | h) | h
    · have := pyLower_upper c h
      exact Or.inl (by omega)
    · rw [pyLower_id_of_le c (by omega) (by omega)]
      exact Or.inl h
    · rw [pyLower_id_of_le c (by omega) (by omega)]
      exact Or.inr h
  have hd1 : slugChar (pyLower c) = true := slugChar_of_ranges _ hr
  have hne : (pyLower c == '-') = false := by
    cases hb : pyLower c == '-' with
    | false => rfl
    | true =>
      have he : pyLower c = '-' := by rwa [beq_iff_eq] at hb
      have h45 : ('-').toNat = 45 := rfl
      rw [he] at hr
      omega
  have hm2 : pyLower c ∈ (t.data.map pyLower).map turkishFold := by
    have hf : turkishFold (pyLower c) = pyLower c := turkishFold_id_slugChar hd1
    rw [← hf]
    exact List.mem_map_of_mem _ (List.mem_map_of_mem _ hc)
  have hm3 : pyLower c ∈ ((t.data.map pyLower).map turkishFold).filter slugKeep :=
    List.mem_filter.mpr ⟨hm2, slugChar_slugKeep hd1⟩
  have hm4 := mem_subRuns_of_mem pyIsSpace '-' _ (slugChar_not_space hd1) _ false hm3
  have hm5 := mem_subRuns_of_mem (· == '-') '-' _ hne _ false hm4
  exact mem_stripChar_of_mem '-' _ hne _ hm5

theorem slug_ne_empty_of_alnum (t : String) (h : ∃ c ∈ t.data, isAsciiAlnumB c = true) :
    generate_slug t ≠ "" := by
  obtain ⟨c, hc, hca⟩ := h
  intro he
  have hd : slugPipeline t = [] := congrArg String.data he
  have hm := slug_survivor t c hc hca
  rw [hd] at hm
  exact List.not_mem_nil _ hm

theorem pyIsWordChar_cases {c : Char} (h : pyIsWordChar c = true) :
    (((((((((((((65 ≤ c.toNat ∧ c.toNat ≤ 90 ∨ 97 ≤ c.toNat ∧ c.toNat ≤ 122) ∨
    48 ≤ c.toNat ∧ c.toNat ≤ 57) ∨ c = '_') ∨ c = 'ğ') ∨ c = 'ü') ∨ c = 'ş') ∨
    c = 'ı') ∨ c = 'ö') ∨ c = 'ç') ∨ c = 'Ğ') ∨ c = 'Ü') ∨ c = 'Ş') ∨ c = 'Ö') ∨
    c = 'Ç' := by
  simp [pyIsWordChar] at h
  exact h

theorem pyIsWordChar_of_lower (c : Char) (h : 97 ≤ c.toNat ∧ c.toNat ≤ 122) :
    pyIsWordChar c = true := by
  simp [pyIsWordChar]
  exact Or.inl (Or.inl (Or.inl (Or.inl (Or.inl (Or.inl (Or.inl (Or.inl (Or.inl
    (Or.inl (Or.inl (Or.inl (Or.inl (Or.inr h)))))))))))))

theorem pyLower_word (c : Char) (h : pyIsWordChar c = true) :
    pyIsWordChar (pyLower c) = true ∧ pyLower (pyLower c) = pyLower c := by
  rcases pyIsWordChar_cases h with
    (((((((((((((h1 | h1) | h1) | rfl) | rfl) | rfl) | rfl) | rfl) | rfl) | rfl) |
      rfl) | rfl) | rfl) | rfl) | rfl
  · have hu := pyLower_upper c h1
    exact ⟨pyIsWordChar_of_lower _ (by omega), pyLower_id_of_le _ (by omega) (by omega)⟩
  · have heq := pyLower_id_of_le c (by omega) (by omega)
    rw [heq]
    exact ⟨h, heq⟩
  all_goals first
    | (have heq := pyLower_id_of_le c (by omega) (by omega)
       rw [heq]
       exact ⟨h, heq⟩)
    | decide

theorem pyLower_dash_iff (a : Char) : (pyLower a == '-') = (a == '-') := by
  by_cases h65 : 65 ≤ a.toNat ∧ a.toNat ≤ 90
  · have hu := pyLower_upper a h65
    have h45 : ('-').toNat = 45 := rfl
    have h1 : (pyLower a == '-') = false := by
      cases hb : pyLower a == '-' with
      | false => rfl
      | true =>
        have he : pyLower a = '-' := by rwa [beq_iff_eq] at hb
        rw [he] at hu
        omega
    have h2 : (a == '-') = false := by
      cases hb : a == '-' with
      | false => rfl
      | true =>
        have he : a = '-' := by rwa [beq_iff_eq] at hb
        subst he
        exact absurd h65 (by decide)
    rw [h1, h2]
  · by_cases hc1 : a = 'Ç'
    · subst hc1; decide
    · by_cases hc2 : a = 'Ö'
      · subst hc2; decide
      · by_cases hc3 : a = 'Ü'
        · subst hc3; decide
        · by_cases hc4 : a = 'Ğ'
          · subst hc4; decide
          · by_cases hc5 : a = 'Ş'
            · subst hc5; decide
            · rw [pyLower_eq_self a h65 hc1 hc2 hc3 hc4 hc5]

theorem noTwoAdj_map_pyLower : ∀ (l : List Char), noTwoAdj '-' l = true →
    noTwoAdj '-' (l.map pyLower) = true := by
  intro l
  induction l with
  | nil => intro _; rfl
  | cons a t ih =>
    intro h
    cases t with
    | nil => rfl
    | cons b u =>
      have h2 := ih (noTwoAdj_tail h)
      simp only [List.map_cons] at h2 ⊢
      cases ha : (pyLower a == '-') with
      | false => exact noTwoAdj_cons_of '-' _ _ ha h2
      | true =>
        have ha' : (a == '-') = true := by rw [← pyLower_dash_iff]; exact ha
        have hae : a = '-' := by rwa [beq_iff_eq] at ha'
        have hb : (b == '-') = false := by
          rw [hae] at h
          have := noTwoAdj_head_of_r h
          simpa [headIsNot] using this
        have hb2 : (pyLower b == '-') = false := by rw [pyLower_dash_iff]; exact hb
        have hae2 : pyLower a = '-' := by rwa [beq_iff_eq] at ha
        rw [hae2]
        exact noTwoAdj_cons_r '-' _ (by simp [headIsNot, hb2]) h2

theorem sanitize_data_chars (s : String) :
    ∀ c ∈ sanitizePipeline s, c = '-' ∨ (pyIsWordChar c = true ∧ pyLower c = c) := by
  intro c hc
  have h2 := mem_of_mem_stripChar '-' c _ hc
  rcases List.mem_map.mp h2 with ⟨d, hd, rfl⟩
  rcases mem_subRuns _ '-' d _ _ hd with rfl | ⟨hd1, hq⟩
  · left; decide
  · right
    have hw : pyIsWordChar d = true := by
      have hk := (List.mem_filter.mp hd1).2
      simp at hk hq
      rcases hk with (hk | hk) | hk
      · exact hk
      · simp [hq.1] at hk
      · exact absurd hk hq.2
    exact pyLower_word d hw

theorem sanitize_noTwoAdj (s : String) : noTwoAdj '-' (sanitizePipeline s) = true :=
  noTwoAdj_stripChar _ _
    (noTwoAdj_map_pyLower _
      ((subRuns_noTwoAdj (fun c => pyIsSpace c || c == '-') '-' (by simp) _ false).1))

theorem sanitize_headIsNot (s : String) : headIsNot '-' (sanitizePipeline s) = true :=
  headIsNot_stripChar _ _

theorem sanitize_lastIsNot (s : String) : lastIsNot (· == '-') (sanitizePipeline s) = true :=
  lastIsNot_stripChar _ _

theorem leadsWith_subset : ∀ (a b : List Char), leadsWith a b = true → ∀ c ∈ a, c ∈ b := by
  intro a
  induction a with
  | nil => intro b _ c hc; cases hc
  | cons x xs ih =>
    intro b h c hc
    cases b with
    | nil => simp [leadsWith] at h
    | cons y ys =>
      simp [leadsWith] at h
      rcases List.mem_cons.mp hc with rfl | hc'
      · rw [h.1]
        exact List.mem_cons_self _ _
      · exact List.mem_cons_of_mem _ (ih ys h.2 c hc')

theorem leadsWith_refl_append : ∀ (a b : List Char), leadsWith a (a ++ b) = true := by
  intro a b
  induction a with
  | nil => rfl
  | cons x xs ih => simp [leadsWith, ih]

theorem endsWith_append (a b : List Char) : endsWithL b (a ++ b) = true := by
  unfold endsWithL
  rw [List.reverse_append]
  exact leadsWith_refl_append _ _

theorem endsWith_false_of_not_mem (ext f : List Char) (rest : List Char)
    (hx : ext = '.' :: rest) (hf : '.' ∉ f) : endsWithL ext f = false := by
  cases he : endsWithL ext f with
  | false => rfl
  | true =>
    exfalso
    have hsub := leadsWith_subset _ _ he
    have hdot : '.' ∈ ext.reverse := List.mem_reverse.mpr (by rw [hx]; exact List.mem_cons_self _ _)
    exact hf (List.mem_reverse.mp (hsub _ hdot))

theorem extOfBase_shape (b : List Char) :
    extOfBase b = [] ∨ ∃ rest, extOfBase b = '.' :: rest := by
  unfold extOfBase
  dsimp only
  split
  · exact Or.inl rfl
  · split
    · exact Or.inr ⟨_, rfl⟩
    · exact Or.inl rfl

theorem imageExt_shape (p : String) : ∃ rest, (imageExt p).data = '.' :: rest := by
  unfold imageExt
  dsimp only
  rcases extOfBase_shape (baseNameL p.data) with he | ⟨rest, he⟩
  · rw [he]
    exact ⟨['j', 'p', 'g'], rfl⟩
  · rw [he]
    exact ⟨rest, rfl⟩

theorem dot_not_mem_sanitize (s : String) : '.' ∉ sanitizePipeline s := by
  intro h
  rcases sanitize_data_chars s '.' h with h1 | ⟨h1, _⟩
  · exact absurd h1 (by decide)
  · exact absurd h1 (by decide)

theorem imageFilename_eq (path : String) :
    imageFilename path =
      (if sanitize_filename (String.mk (baseNameL path.data)) = "" then "image"
       else sanitize_filename (String.mk (baseNameL path.data))) ++ imageExt path := by
  unfold imageFilename
  dsimp only
  obtain ⟨rest, hext⟩ := imageExt_shape path
  by_cases hf : sanitize_filename (String.mk (baseNameL path.data)) = ""
  · rw [if_pos hf]
    rw [endsWith_false_of_not_mem _ _ rest hext (by decide)]
    simp
  · rw [if_neg hf]
    rw [endsWith_false_of_not_mem (imageExt path).data
      (sanitize_filename (String.mk (baseNameL path.data))).data rest hext
      (dot_not_mem_sanitize (String.mk (baseNameL path.data)))]
    simp

theorem addLinks_contains (u : String) :
    ∀ (urls L : List String) (b : Bool), L.contains u = true →
      (urls.foldl addLink (L, b)).1.contains u = true := by
  intro urls
  induction urls with
  | nil => intro L b h; exact h
  | cons v vs ih =>
    intro L b h
    rw [List.foldl_cons]
    unfold addLink
    by_cases hv : L.contains v = true
    · simp only [hv, if_true]
      exact ih L b h
    · have hv' : L.contains v = false := by revert hv; cases L.contains v <;> simp
      simp only [hv', Bool.false_eq_true, if_false]
      exact ih (v :: L) true (by simp; exact Or.inr (by simpa using h))

theorem addLinks_contains_of_mem (u : String) :
    ∀ (urls L : List String) (b : Bool), u ∈ urls →
      (urls.foldl addLink (L, b)).1.contains u = true := by
  intro urls
  induction urls with
  | nil => intro L b h; cases h
  | cons v vs ih =>
    intro L b h
    rw [List.foldl_cons]
    rcases List.mem_cons.mp h with rfl | h'
    · unfold addLink
      by_cases hv : L.contains u = true
      · simp only [hv, if_true]
        exact addLinks_contains u vs L b hv
      · have hv' : L.contains u = false := by revert hv; cases L.contains u <;> simp
        simp only [hv', Bool.false_eq_true, if_false]
        exact addLinks_contains u vs (u :: L) true (by simp [List.contains_cons])
    · unfold addLink
      by_cases hv : L.contains v = true
      · simp only [hv, if_true]
        exact ih L b h'
      · have hv' : L.contains v = false := by revert hv; cases L.contains v <;> simp
        simp only [hv', Bool.false_eq_true, if_false]
        exact ih (v :: L) true h'

theorem addLinks_nofound :
    ∀ (urls L : List String) (b : Bool), (∀ u ∈ urls, L.contains u = true) →
      urls.foldl addLink (L, b) = (L, b) := by
  intro urls
  induction urls with
  | nil => intro L b _; rfl
  | cons v vs ih =>
    intro L b h
    rw [List.foldl_cons]
    unfold addLink
    simp only [h v (List.mem_cons_self _ _), if_true]
    exact ih L b (fun u hu => h u (List.mem_cons_of_mem _ hu))

theorem crawl_halts (base : String) (pages : Nat → FetchPage) :
    ∀ (fuel p : Nat) (links : List String),
      (∃ j, p ≤ j ∧ j < p + fuel ∧
        (pages j = .fail ∨ pageHasNext (pages j) = false ∨
          ∀ u ∈ pageUrls base (pages j), links.contains u = true ∨
            ∃ i, p ≤ i ∧ i < j ∧ u ∈ pageUrls base (pages i))) →
      (find_all_blog_links base pages fuel links p).isSome = true := by
  intro fuel
  induction fuel with
  | zero =>
    intro p links h
    obtain ⟨j, h1, h2, _⟩ := h
    omega
  | succ fuel ih =>
    intro p links h
    obtain ⟨j, hj1, hj2, hj3⟩ := h
    cases hp : pages p with
    | fail => simp [find_all_blog_links, hp]
    | page hrefs nx =>
      rw [show find_all_blog_links base pages (fuel + 1) links p =
        (let st := (pageUrls base (.page hrefs nx)).foldl addLink (links, false)
         if !st.2 || !nx then some st.1
         else find_all_blog_links base pages fuel st.1 (p + 1)) by
          rw [find_all_blog_links, hp]]
      dsimp only
      by_cases hstop : (!((pageUrls base (.page hrefs nx)).foldl addLink (links, false)).2 || !nx) = true
      · rw [if_pos hstop]
        rfl
      · rw [if_neg hstop]
        have hsn : ((pageUrls base (.page hrefs nx)).foldl addLink (links, false)).2 = true ∧ nx = true := by
          revert hstop
          cases ((pageUrls base (.page hrefs nx)).foldl addLink (links, false)).2 <;> cases nx <;> simp
        have hjp : j ≠ p := by
          intro he
          subst he
          rcases hj3 with h' | h' | h'
          · rw [hp] at h'
            cases h'
          · rw [hp] at h'
            simp [pageHasNext] at h'
            rw [h'] at hsn
            exact absurd hsn.2 (by simp)
          · have hall : ∀ u ∈ pageUrls base (.page hrefs nx), links.contains u = true := by
              intro u hu
              rcases h' u (by rw [hp]; exact hu) with hc | ⟨i, hi1, hi2, _⟩
              · exact hc
              · omega
            have hfold := addLinks_nofound (pageUrls base (.page hrefs nx)) links false hall
            rw [hfold] at hsn
            exact absurd hsn.1 (by simp)
        apply ih (p + 1)
        refine ⟨j, by omega, by omega, ?_⟩
        rcases hj3 with h' | h' | h'
        · exact Or.inl h'
        · exact Or.inr (Or.inl h')
        · refine Or.inr (Or.inr ?_)
          intro u hu
          rcases h' u hu with hc | ⟨i, hi1, hi2, hmem⟩
          · exact Or.inl (addLinks_contains u _ links false hc)
          · by_cases hip : i = p
            · subst hip
              exact Or.inl (addLinks_contains_of_mem u _ links false (by rw [hp] at hmem; exact hmem))
            · exact Or.inr ⟨i, by omega, hi2, hmem⟩

theorem crawl_fail_keeps_links (base : String) (pages : Nat → FetchPage)
    (fuel p : Nat) (links : List String) (h : pages p = .fail) :
    find_all_blog_links base pages (fuel + 1) links p = some links := by
  rw [find_all_blog_links, h]

theorem countWords_pyRepeat_word : ∀ n : Nat, countWords (pyRepeat "word " n) = n := by
  intro n
  induction n with
  | zero => rfl
  | succ n ih =>
    show countWordsAux false ("word " ++ pyRepeat "word " n).data = n + 1
    rw [show ("word " ++ pyRepeat "word " n).data = "word ".data ++ (pyRepeat "word " n).data from rfl]
    rw [show ∀ l, countWordsAux false ("word ".data ++ l) = 1 + countWordsAux false l from fun l => rfl]
    rw [show countWordsAux false (pyRepeat "word " n).data = n from ih]
    omega

theorem runMain_eq (env : ScrapeEnv) (urls : List String) :
    runMain env urls =
      (urls.filterMap (fun u => (scrape_blog_post env u).map (fun p => (p.slug ++ ".json", p))),
       (urls.filter (fun u => (scrape_blog_post env u).isSome)).length) := by
  suffices h : ∀ (us : List String) (acc : List (String × Post)) (cnt : Nat),
      us.foldl (mainStep env) (acc, cnt) =
        (acc ++ us.filterMap (fun u => (scrape_blog_post env u).map (fun p => (p.slug ++ ".json", p))),
         cnt + (us.filter (fun u => (scrape_blog_post env u).isSome)).length) by
    have h0 := h urls [] 0
    simpa [runMain] using h0
  intro us
  induction us with
  | nil => intro acc cnt; simp
  | cons u us ih =>
    intro acc cnt
    rw [List.foldl_cons]
    cases hs : scrape_blog_post env u with
    | none =>
      rw [show mainStep env (acc, cnt) u = (acc, cnt) by unfold mainStep; rw [hs]]
      rw [ih acc cnt]
      simp [hs]
    | some post =>
      rw [show mainStep env (acc, cnt) u =
        (acc ++ [(post.slug ++ ".json", post)], cnt + 1) by unfold mainStep; rw [hs]]
      rw [ih _ _]
      simp [hs, List.append_assoc]
      omega

theorem scrape_err (env : ScrapeEnv) (url : String) (h : env.fetch url = .err) :
    scrape_blog_post env url = none := by
  unfold scrape_blog_post
  rw [h]

theorem scrape_ok_iff (env : ScrapeEnv) (url : String) (doc : Node)
    (h : env.fetch url = .ok doc) :
    (scrape_blog_post env url = none ↔ contentElemOf doc = none) := by
  unfold scrape_blog_post
  rw [h]
  cases hce : contentElemOf doc <;> simp [hce]

theorem scrape_ok_some (env : ScrapeEnv) (url : String) (doc region : Node)
    (h1 : env.fetch url = .ok doc) (h2 : contentElemOf doc = some region) :
    scrape_blog_post env url = some (buildPost env url doc region) := by
  unfold scrape_blog_post
  rw [h1]
  dsimp only
  rw [h2]

/-- C1 (code_bug evaluation): the pipeline run by `main` never invokes
`download_image` — on a post page whose content holds one absolute-URL
image, the persisted record keeps that absolute URL (it does not start
with `/blog/`), even though a successful `download_image` call on that
image would have produced the site-relative path `/blog/hello/apng.png`. -/
theorem c1_images_never_rewritten :
    (runMain envHello ["https://postgrespro.com/blog/post1"]).1.map
        (fun r => (r.1, r.2.images)) =
      [("hello.json", ["https://example.com/pics/a.png"])] ∧
    (runMain envHello ["https://postgrespro.com/blog/post1"]).2 = 1 ∧
    (["https://example.com/pics/a.png"].all
      (fun s => !(leadsWith "/blog/".data s.data))) = true ∧
    download_image "/pics/a.png" "hello" .ok = some "/blog/hello/apng.png" := by
  refine ⟨rfl, rfl, by decide, rfl⟩

/-- C2 (counterexample): the record persisted for a concrete page uses
the key `titleTr` (and `categoryTr`, `tagsTr`, `excerptTr`,
`contentTr`), not the `…Translated` names the claim lists, so its key
list differs from the claimed one. -/
theorem c2_keys_counterexample :
    ((runMain envEmptyFirstP ["https://postgrespro.com/blog/p1"]).1.map
      (fun r => (postPairs r.2).map Prod.fst)) = [actualPostKeys] ∧
    actualPostKeys ≠ claimedPostKeys ∧
    ¬ actualPostKeys.contains "titleTranslated" = true := by
  refine ⟨rfl, by decide, by decide⟩

/-- C2 (amended): every record persisted by the pipeline is a flat
object with exactly the nineteen source field names, in source order:
title, titleTr, slug, date, author, category, categoryTr, tags,
tagsTr, sourceUrl, canonicalUrl, excerpt, excerptTr, content,
contentTr, readingTime, heroImage, images, published. -/
theorem c2_record_keys :
    (∀ (env : ScrapeEnv) (urls : List String),
      (((runMain env urls).1.map (fun r => (postPairs r.2).map Prod.fst)).all
        (fun ks => ks == actualPostKeys)) = true) ∧
    ((runMain envEmptyFirstP ["https://postgrespro.com/blog/p1"]).1.map
      (fun r => (postPairs r.2).map Prod.fst)) = [actualPostKeys] := by
  constructor
  · intro env urls
    rw [List.all_eq_true]
    intro ks hks
    rcases List.mem_map.mp hks with ⟨r, _, rfl⟩
    rw [show (postPairs r.2).map Prod.fst = actualPostKeys from rfl]
    simp
  · rfl

/-- C3 (counterexample): a page whose `h1` text is `"!!!"` produces a
record whose slug is the empty string — `generate_slug` returns `""`
for a title with no ASCII alphanumeric characters. -/
theorem c3_empty_slug_counterexample :
    (scrape_blog_post envBang "https://postgrespro.com/blog/p").map (fun p => p.slug) =
      some "" ∧
    generate_slug "!!!" = "" := by
  refine ⟨rfl, by decide⟩

/-- C3 (amended): `generate_slug` returns a non-empty string for every
title containing at least one ASCII alphanumeric character; titles
with none (such as `"!!!"`) yield the empty slug. -/
theorem c3_slug_nonempty_of_alnum (t : String)
    (h : ∃ c ∈ t.data, isAsciiAlnumB c = true) : generate_slug t ≠ "" :=
  slug_ne_empty_of_alnum t h

theorem c3_slug_nonempty_witness : generate_slug "Ab!" ≠ "" :=
  c3_slug_nonempty_of_alnum "Ab!" (by decide)

/-- C4 (counterexample): `sanitize_filename` removes the dot (a
non-word character), so on the claim's own example it returns
`"my-image-finalpng"`, not the claimed `"my-image-final.png"`. -/
theorem c4_sanitize_example_counterexample :
    sanitize_filename "My Image (final)!.png" ≠ "my-image-final.png" ∧
    sanitize_filename "My Image (final)!.png" = "my-image-finalpng" := by
  refine ⟨by decide, by decide⟩

/-- C4 (amended): `sanitize_filename` keeps only lowercased word
characters and hyphens, never leaves two adjacent hyphens nor an edge
hyphen, and on the spec's example returns `"my-image-finalpng"` (the
dot is punctuation outside word/space/hyphen, so it is removed). -/
theorem c4_sanitize_props :
    (∀ (s : String), ∀ c ∈ (sanitize_filename s).data,
      c = '-' ∨ (pyIsWordChar c = true ∧ pyLower c = c)) ∧
    (∀ s : String,
      noTwoAdj '-' (sanitize_filename s).data = true ∧
      headIsNot '-' (sanitize_filename s).data = true ∧
      lastIsNot (· == '-') (sanitize_filename s).data = true) ∧
    sanitize_filename "My Image (final)!.png" = "my-image-finalpng" := by
  refine ⟨?_, ?_, by decide⟩
  · intro s c hc
    exact sanitize_data_chars s c hc
  · intro s
    exact ⟨sanitize_noTwoAdj s, sanitize_headIsNot s, sanitize_lastIsNot s⟩

theorem c4_sanitize_props_witness :
    'm' = '-' ∨ (pyIsWordChar 'm' = true ∧ pyLower 'm' = 'm') :=
  c4_sanitize_props.1 "My Image (final)!.png" 'm' (by decide)

/-- C5 (counterexample): the excerpt taken from a meta description is
used verbatim — a 201-character `og:description` yields a
201-character excerpt, though the claim bounds it by 200 — and when no
meta is present the code uses the FIRST paragraph even if its text is
empty, while the claim prescribes the first non-empty paragraph
(which the spec-modelled `specExcerptOf` returns: `"Hello"`). -/
theorem c5_excerpt_counterexample :
    ((scrape_blog_post envMetaLong "https://postgrespro.com/blog/p").map
      (fun p => p.excerpt.length)) = some 201 ∧
    (specExcerptOf docMetaLong bodyMetaLong).length = 200 ∧
    ((scrape_blog_post envEmptyFirstP "https://postgrespro.com/blog/p").map
      (fun p => p.excerpt)) = some "" ∧
    specExcerptOf docEmptyFirstP bodyEmptyFirstP = "Hello" := by
  refine ⟨rfl, rfl, rfl, rfl⟩

/-- C5 (amended): for every successfully extracted record, the excerpt
comes from the `og:description` meta, else the `name=description`
meta, used verbatim when non-empty (its length is unbounded);
otherwise it is the first paragraph's stripped text truncated to 200
characters (empty when no paragraph exists), so the 200-character
bound holds exactly when no non-empty meta description is present. -/
theorem c5_excerpt_chain (env : ScrapeEnv) (url : String) (doc : Node) (p : Post)
    (hf : env.fetch url = .ok doc) (hs : scrape_blog_post env url = some p) :
    (metaExcerptOf doc ≠ "" → p.excerpt = metaExcerptOf doc) ∧
    (metaExcerptOf doc = "" → p.excerpt.length ≤ 200) := by
  unfold scrape_blog_post at hs
  rw [hf] at hs
  dsimp only at hs
  cases hce : contentElemOf doc with
  | none => rw [hce] at hs; cases hs
  | some region =>
    rw [hce] at hs
    have hp : p = buildPost env url doc region := by
      injection hs with h
      exact h.symm
    subst hp
    rw [show (buildPost env url doc region).excerpt = excerptOf doc (pruneRegion region) from rfl]
    constructor
    · intro hne
      unfold excerptOf
      dsimp only
      rw [if_neg hne]
    · intro heq
      unfold excerptOf
      dsimp only
      rw [if_pos heq]
      cases hfp : findFirst (tagIs "p") (pruneRegion region) with
      | none => simp
      | some fp =>
        show ((getTextStrip fp).data.take 200).length ≤ 200
        simp

theorem c5_excerpt_chain_witness :
    (buildPost envMetaLong "u" docMetaLong bodyMetaLong).excerpt = metaExcerptOf docMetaLong :=
  (c5_excerpt_chain envMetaLong "u" docMetaLong
    (buildPost envMetaLong "u" docMetaLong bodyMetaLong) rfl rfl).1 (by decide)

/-- C6: `generate_slug` is idempotent, its output contains only
characters in `[a-z0-9-]`, it never starts or ends with a hyphen, and
`generate_slug "PostgreSQL Şirket Güncellemeleri!"` equals
`"postgresql-sirket-guncellemeleri"`. -/
theorem c6_generate_slug_props :
    (∀ x : String, generate_slug (generate_slug x) = generate_slug x) ∧
    (∀ x : String, ∀ c ∈ (generate_slug x).data, slugChar c = true) ∧
    (∀ x : String,
      headIsNot '-' (generate_slug x).data = true ∧
      lastIsNot (· == '-') (generate_slug x).data = true) ∧
    generate_slug "PostgreSQL Şirket Güncellemeleri!" = "postgresql-sirket-guncellemeleri" := by
  refine ⟨generate_slug_idem, ?_, ?_, by decide⟩
  · intro x c hc
    exact slug_data_chars x c hc
  · intro x
    exact ⟨slug_headIsNot x, slug_lastIsNot x⟩

theorem c6_generate_slug_props_witness :
    generate_slug (generate_slug "A b") = generate_slug "A b" ∧ slugChar 'a' = true :=
  ⟨c6_generate_slug_props.1 "A b", c6_generate_slug_props.2.1 "A b" 'a' (by decide)⟩

/-- C7: `calculate_reading_time` is the least reading time `m ≥ 1`
with `countWords text ≤ 200 * m` — the ceiling of the `\b\w+\b` word
count divided by 200, floored at 1 — so 0–200 words give 1, 201–400
give 2, and `"word " * 450` gives 3. -/
theorem c7_reading_time_spec :
    (∀ text : String,
      (1 ≤ calculate_reading_time text ∧
       countWords text ≤ 200 * calculate_reading_time text ∧
       (∀ m : Nat, 1 ≤ m → countWords text ≤ 200 * m → calculate_reading_time text ≤ m)) ∧
      (countWords text ≤ 200 → calculate_reading_time text = 1) ∧
      (200 < countWords text → countWords text ≤ 400 → calculate_reading_time text = 2)) ∧
    calculate_reading_time (pyRepeat "word " 450) = 3 := by
  constructor
  · intro text
    unfold calculate_reading_time
    refine ⟨⟨?_, ?_, ?_⟩, ?_, ?_⟩
    · omega
    · omega
    · intro m h1 h2
      omega
    · intro h
      omega
    · intro h1 h2
      omega
  · unfold calculate_reading_time
    rw [countWords_pyRepeat_word 450]
    decide

theorem c7_reading_time_spec_witness :
    calculate_reading_time "one two" = 1 ∧ calculate_reading_time "" ≤ 1 :=
  ⟨(c7_reading_time_spec.1 "one two").2.1 (by decide),
   ((c7_reading_time_spec.1 "").1.2.2 1 (by decide) (by decide))⟩

/-- C8: the listing crawler halts within `k` pages whenever page `k`
fails to fetch, lacks a next/pagination link, or contributes only URLs
already contributed by earlier pages — even if the endpoint would keep
returning pages — and a page fetch failure immediately returns the
URLs collected so far. -/
theorem c8_crawler_terminates :
    (∀ (base : String) (pages : Nat → FetchPage) (k : Nat), 1 ≤ k →
      (pages k = .fail ∨ pageHasNext (pages k) = false ∨
        ∀ u ∈ pageUrls base (pages k), ∃ i, 1 ≤ i ∧ i < k ∧ u ∈ pageUrls base (pages i)) →
      (find_all_blog_links base pages k [] 1).isSome = true) ∧
    (∀ (base : String) (pages : Nat → FetchPage) (fuel p : Nat) (links : List String),
      pages p = .fail → find_all_blog_links base pages (fuel + 1) links p = some links) := by
  constructor
  · intro base pages k hk hstop
    apply crawl_halts
    refine ⟨k, hk, by omega, ?_⟩
    rcases hstop with h | h | h
    · exact Or.inl h
    · exact Or.inr (Or.inl h)
    · exact Or.inr (Or.inr (fun u hu => Or.inr (h u hu)))
  · intro base pages fuel p links h
    exact crawl_fail_keeps_links base pages fuel p links h

theorem c8_crawler_terminates_witness :
    (find_all_blog_links "https://postgrespro.com/blog"
      (fun _ => FetchPage.page ["/blog/a"] true) 2 [] 1).isSome = true ∧
    find_all_blog_links "https://postgrespro.com/blog" (fun _ => FetchPage.fail) 1 ["x"] 3 =
      some ["x"] :=
  ⟨c8_crawler_terminates.1 _ _ 2 (by omega)
    (Or.inr (Or.inr (fun u hu => ⟨1, by omega, by omega, hu⟩))),
   c8_crawler_terminates.2 _ _ 0 3 ["x"] rfl⟩

/-- C9: per-post extraction never reaches the orchestrator with an
exception: a fetch/parse failure yields `none`, and given a parsed
page, `none` results exactly when no content-region candidate exists;
`main` still processes every URL, persists exactly the successful
records, and reports their count. -/
theorem c9_per_url_isolation :
    (∀ (env : ScrapeEnv) (url : String),
      env.fetch url = .err → scrape_blog_post env url = none) ∧
    (∀ (env : ScrapeEnv) (url : String) (doc : Node), env.fetch url = .ok doc →
      (scrape_blog_post env url = none ↔ contentElemOf doc = none)) ∧
    (∀ (env : ScrapeEnv) (urls : List String),
      (runMain env urls).2 = (urls.filter (fun u => (scrape_blog_post env u).isSome)).length ∧
      (runMain env urls).1 =
        urls.filterMap (fun u => (scrape_blog_post env u).map (fun p => (p.slug ++ ".json", p)))) := by
  refine ⟨scrape_err, scrape_ok_iff, ?_⟩
  intro env urls
  rw [runMain_eq]
  exact ⟨rfl, rfl⟩

theorem c9_per_url_isolation_witness :
    scrape_blog_post envErr "u" = none ∧ scrape_blog_post envNoBody "u" = none :=
  ⟨c9_per_url_isolation.1 envErr "u" rfl,
   (c9_per_url_isolation.2.1 envNoBody "u" docNoBody rfl).mpr rfl⟩

/-- C10: a successful `download_image` returns exactly
`/blog/<slug>/<filename>` with a non-empty filename that always ends
in the extension derived from the URL path (`.jpg` by default); since
`sanitize_filename` removes dots, the extension is appended even when
the basename already had one, so basename `img.png` yields
`imgpng.png`. -/
theorem c10_download_path_form :
    (∀ path slug : String,
      download_image path slug .ok = some ("/blog/" ++ slug ++ "/" ++ imageFilename path) ∧
      imageFilename path ≠ "" ∧
      endsWithL (imageExt path).data (imageFilename path).data = true) ∧
    download_image "/pics/img.png" "post" .ok = some "/blog/post/imgpng.png" ∧
    imageExt "/pics/photo" = ".jpg" ∧
    (imageFilename "" = "image.jpg" ∧ download_image "" "s" .err = none) := by
  refine ⟨?_, rfl, rfl, by decide, rfl⟩
  intro path slug
  refine ⟨rfl, ?_, ?_⟩
  · rw [imageFilename_eq]
    intro he
    obtain ⟨rest, hext⟩ := imageExt_shape path
    have hd : ((if sanitize_filename (String.mk (baseNameL path.data)) = "" then "image"
        else sanitize_filename (String.mk (baseNameL path.data))).data ++ (imageExt path).data) =
        ([] : List Char) := congrArg String.data he
    have h2 := (List.append_eq_nil.mp hd).2
    rw [hext] at h2
    cases h2
  · rw [imageFilename_eq]
    show endsWithL (imageExt path).data
      ((if sanitize_filename (String.mk (baseNameL path.data)) = "" then "image"
        else sanitize_filename (String.mk (baseNameL path.data))).data ++ (imageExt path).data) = true
    exact endsWith_append _ _

theorem c10_download_path_form_witness : imageFilename "/pics/img.png" ≠ "" :=
  (c10_download_path_form.1 "/pics/img.png" "post").2.1
